import Mathlib

/-!
A verification development for the transitive-dependency resolution core of
`tox_poetry_installer/utilities.py`: the function `identify_transients`, its
inner recursive helper `find_deps_of_deps`, and the dependency set builders
that concatenate its results.  The Python code is shallowly embedded below;
traversal recursion is fuel-indexed with a fuel bound proved sufficient.
-/

namespace ToxPoetryInstaller

/-- A single requirement entry of a package record; the traversal uses only its
bare `name` (`dep.name` in the source). -/
structure Dep where
  name : String
deriving DecidableEq

/-- A resolved lockfile entry (a poetry `Package`): its name, resolved version,
`python_constraint` (a predicate over interpreter version strings, of which the
code only evaluates `allows(PLATFORM_VERSION)`), optional `platform` marker and
the declared `requires` list. -/
structure PoetryPackage where
  name : String
  version : String
  pythonConstraint : String → Bool
  platform : Option String
  requires : List Dep

/-- Ambient interpreter facts (`constants.PLATFORM_VERSION` and `sys.platform`),
passed explicitly as the spec's design notes direct. -/
structure SysConfig where
  pythonVersion : String
  platform : String

/-- The lockfile package store: an association list from name key to package
record, looked up by exact key equality like a Python `dict`. -/
abbrev PackageMap := List (String × PoetryPackage)

def lookupPkg : PackageMap → String → Option PoetryPackage
  | [], _ => none
  | (k, v) :: rest, s => if k = s then some v else lookupPkg rest s

/-- Modelled from the spec: `constants.PEP508_VERSION_DELIMITERS` lives in
`constants.py`, which is not under `src/`; spec §4.1 describes it as a fixed
punctuation set used in dependency specifiers, listing `=`, `<`, `>`, `^`,
`~`, `@`. -/
def PEP508_VERSION_DELIMITERS : List Char := ['=', '<', '>', '^', '~', '@']

/-- The `any(delimiter in dependency_name for delimiter in ...)` test of
`identify_transients`: some delimiter character occurs in the name. -/
def hasVersionDelimiter (s : String) : Bool :=
  s.data.any (fun c => PEP508_VERSION_DELIMITERS.contains c)

/-- Python's `str.lower`, written over the character list so that it evaluates
by reduction. -/
def strLower (s : String) : String := ⟨s.data.map Char.toLower⟩

/-- Failure values: Python's `KeyError` together with the two
`LockedDependencyError` variants raised by `identify_transients`. -/
inductive ResolveError where
  | keyError (name : String)
  | lockedDepVersionConflict (name : String)
  | lockedDepNotFound (name : String)
deriving DecidableEq

/-- The mutable closure state of one `identify_transients` call: the `searched`
name set (line 71; it holds names, despite its type annotation) and the
accumulated `transients` result list. -/
structure St where
  searched : List String
  transients : List PoetryPackage

/-- The `package.platform is not None and package.platform != sys.platform`
test of `find_deps_of_deps`. -/
def platformIncompatible (cfg : SysConfig) (p : PoetryPackage) : Bool :=
  match p.platform with
  | none => false
  | some pl => pl != cfg.platform

/-- The `for index, dep in enumerate(package.requires)` loop of
`find_deps_of_deps`: recurse on each requirement whose name is not in
`searched`, threading the state and propagating failures. -/
def processReqs (step : String → St → Option (Except ResolveError St)) :
    List Dep → St → Option (Except ResolveError St)
  | [], st => some (.ok st)
  | d :: rest, st =>
    if d.name ∈ st.searched then processReqs step rest st
    else
      match step d.name st with
      | none => none
      | some (.error e) => some (.error e)
      | some (.ok st2) => processReqs step rest st2

/-- Fuel-indexed embedding of the recursive helper `find_deps_of_deps`
(`utilities.py` lines 73–117).  `none` means the fuel ran out, which is proved
below never to happen for `sufficientFuel`.  The `unsupportedPackages`
parameter models `_poetry.Provider.UNSAFE_PACKAGES`, a policy constant
external to `src/` (spec §6 calls it a fixed unsupported-package name set). -/
def find_deps_of_deps (cfg : SysConfig) (unsupportedPackages : List String)
    (packages : PackageMap) (allow_missing : List String) :
    Nat → String → St → Option (Except ResolveError St)
  | 0, _, _ => none
  | n + 1, name, st =>
    if name ∈ unsupportedPackages then
      some (.ok { st with searched := name :: st.searched })
    else
      match lookupPkg packages name with
      | none =>
        if name ∈ allow_missing then
          some (.ok { st with searched := name :: st.searched })
        else some (.error (.keyError name))
      | some package =>
        if package.pythonConstraint cfg.pythonVersion = false then
          some (.ok { st with searched := name :: st.searched })
        else if platformIncompatible cfg package = true then
          some (.ok { st with searched := name :: st.searched })
        else
          match processReqs
              (find_deps_of_deps cfg unsupportedPackages packages allow_missing n)
              package.requires { st with searched := name :: st.searched } with
          | none => none
          | some (.error e) => some (.error e)
          | some (.ok st2) =>
            some (.ok { st2 with transients := st2.transients ++ [package] })

/-- All names that appear as a requirement of some record in the store; any
name `find_deps_of_deps` ever recurses on is drawn from this list. -/
def depNames (packages : PackageMap) : List String :=
  (packages.flatMap (fun kv => kv.2.requires.map (fun d => d.name))).dedup

/-- One more unit of fuel than there are distinct requirement names: enough
for every traversal (proved below). -/
def sufficientFuel (packages : PackageMap) : Nat := (depNames packages).length + 1

/-- The `except KeyError` handler at the bottom of `identify_transients`
(lines 121–138); note it classifies by the root `dependency_name`. -/
def handleRootKeyError (unsupportedPackages : List String) (dependency_name : String) :
    Except ResolveError (List PoetryPackage) :=
  if dependency_name ∈ unsupportedPackages then .ok []
  else if hasVersionDelimiter dependency_name = true then
    .error (.lockedDepVersionConflict dependency_name)
  else .error (.lockedDepNotFound dependency_name)

/-- `identify_transients` (`utilities.py` lines 51–140): look up the root,
run the traversal from the found record's name with fresh state, and translate
any `KeyError` that reaches the top through `handleRootKeyError`. -/
def identify_transients (cfg : SysConfig) (unsupportedPackages : List String)
    (packages : PackageMap) (dependency_name : String) (allow_missing : List String) :
    Option (Except ResolveError (List PoetryPackage)) :=
  match lookupPkg packages dependency_name with
  | none => some (handleRootKeyError unsupportedPackages dependency_name)
  | some package =>
    match find_deps_of_deps cfg unsupportedPackages packages allow_missing
        (sufficientFuel packages) package.name { searched := [], transients := [] } with
    | none => none
    | some (.ok st) => some (.ok st.transients)
    | some (.error (.keyError _)) =>
      some (handleRootKeyError unsupportedPackages dependency_name)
    | some (.error e) => some (.error e)

/-- The `dependencies += identify_transients(...)` accumulation loop shared by
the dependency set builders: resolve each root in order and concatenate,
propagating the first failure. -/
def concatTransients (cfg : SysConfig) (unsupportedPackages : List String)
    (packages : PackageMap) (allow_missing : List String) :
    List String → Option (Except ResolveError (List PoetryPackage))
  | [] => some (.ok [])
  | n :: rest =>
    match identify_transients cfg unsupportedPackages packages n allow_missing with
    | none => none
    | some (.error e) => some (.error e)
    | some (.ok l) =>
      match concatTransients cfg unsupportedPackages packages allow_missing rest with
      | none => none
      | some (.error e) => some (.error e)
      | some (.ok ls) => some (.ok (l ++ ls))

/-- `find_env_dependencies` (lines 241–258): resolve each env-locked dependency
name, lowercased, with `allow_missing = [project name]`, concatenating. -/
def find_env_dependencies (cfg : SysConfig) (unsupportedPackages : List String)
    (packages : PackageMap) (projectName : String) (locked_deps : List String) :
    Option (Except ResolveError (List PoetryPackage)) :=
  concatTransients cfg unsupportedPackages packages [projectName]
    (locked_deps.map (fun s => strLower s))

/-- `find_dev_dependencies` (lines 219–238): resolve each declared
dev-dependency name as written (no lowercasing), with
`allow_missing = [project name]`. -/
def find_dev_dependencies (cfg : SysConfig) (unsupportedPackages : List String)
    (packages : PackageMap) (projectName : String) (dev_names : List String) :
    Option (Except ResolveError (List PoetryPackage)) :=
  concatTransients cfg unsupportedPackages packages [projectName] dev_names

/-- Modelled from the spec: the `PackageMap` mapping type (`datatypes.py`) is
not under `src/`; spec §3 declares `name` a case-insensitive identity key of a
store keyed by lowercase names, so this lookup lowercases the queried name. -/
def lookupPkgCI (packages : PackageMap) (s : String) : Option PoetryPackage :=
  lookupPkg packages (strLower s)

/-- `find_deps_of_deps` over the case-insensitive store model (used only to
settle the case-insensitivity claim). -/
def find_deps_of_deps_ci (cfg : SysConfig) (unsupportedPackages : List String)
    (packages : PackageMap) (allow_missing : List String) :
    Nat → String → St → Option (Except ResolveError St)
  | 0, _, _ => none
  | n + 1, name, st =>
    if name ∈ unsupportedPackages then
      some (.ok { st with searched := name :: st.searched })
    else
      match lookupPkgCI packages name with
      | none =>
        if name ∈ allow_missing then
          some (.ok { st with searched := name :: st.searched })
        else some (.error (.keyError name))
      | some package =>
        if package.pythonConstraint cfg.pythonVersion = false then
          some (.ok { st with searched := name :: st.searched })
        else if platformIncompatible cfg package = true then
          some (.ok { st with searched := name :: st.searched })
        else
          match processReqs
              (find_deps_of_deps_ci cfg unsupportedPackages packages allow_missing n)
              package.requires { st with searched := name :: st.searched } with
          | none => none
          | some (.error e) => some (.error e)
          | some (.ok st2) =>
            some (.ok { st2 with transients := st2.transients ++ [package] })

/-- `identify_transients` over the case-insensitive store model. -/
def identify_transients_ci (cfg : SysConfig) (unsupportedPackages : List String)
    (packages : PackageMap) (dependency_name : String) (allow_missing : List String) :
    Option (Except ResolveError (List PoetryPackage)) :=
  match lookupPkgCI packages dependency_name with
  | none => some (handleRootKeyError unsupportedPackages dependency_name)
  | some package =>
    match find_deps_of_deps_ci cfg unsupportedPackages packages allow_missing
        (sufficientFuel packages) package.name { searched := [], transients := [] } with
    | none => none
    | some (.ok st) => some (.ok st.transients)
    | some (.error (.keyError _)) =>
      some (handleRootKeyError unsupportedPackages dependency_name)
    | some (.error e) => some (.error e)

/-- The requirement edge relation of the store: `a` requires `b`. -/
def Edge (pm : PackageMap) (a b : String) : Prop :=
  ∃ p, lookupPkg pm a = some p ∧ ∃ d, d ∈ p.requires ∧ d.name = b

/-- Transitive reachability along requirement edges (reflexive). -/
def Reach (pm : PackageMap) : String → String → Prop :=
  Relation.ReflTransGen (Edge pm)

/-- No name reachable from `root` lies on a requirement cycle. -/
def Acyclic (pm : PackageMap) (root : String) : Prop :=
  ∀ x, Reach pm root x → ¬ Relation.TransGen (Edge pm) x x

/-- The reachable subgraph of `root` is fully resolvable: every reachable name
is absent from the unsupported set, present in the store under its own name,
and its record passes the interpreter-version and platform filters. -/
def GoodStore (cfg : SysConfig) (unsupportedPackages : List String)
    (pm : PackageMap) (root : String) : Prop :=
  ∀ x, Reach pm root x →
    x ∉ unsupportedPackages ∧
    ∃ p, lookupPkg pm x = some p ∧ p.name = x ∧
      p.pythonConstraint cfg.pythonVersion = true ∧
      ∀ pl, p.platform = some pl → pl = cfg.platform

/-- The name list of a package record list. -/
def names (l : List PoetryPackage) : List String := l.map (fun p => p.name)

/-- `depsBeforeAux seen l`: every record of `l` names its requirements among
`seen` or among records before it in `l`. -/
def depsBeforeAux : List String → List PoetryPackage → Prop
  | _, [] => True
  | seen, p :: rest =>
    (∀ d ∈ p.requires, d.name ∈ seen) ∧ depsBeforeAux (p.name :: seen) rest

/-- Every record's requirements name only records strictly earlier in `l`. -/
def depsBefore (l : List PoetryPackage) : Prop := depsBeforeAux [] l

/-- The number of requirement names not yet searched; the fuel measure. -/
def fresh (pm : PackageMap) (searched : List String) : Nat :=
  ((depNames pm).filter (fun x => decide (x ∉ searched))).length

/-- Invariant of the traversal state during one `identify_transients` call,
relative to the ancestor stack `anc`: the searched set is the ancestors plus
the emitted names, emitted names are searched, every emitted record is its own
store entry, emitted names are reachable from the root, emitted names are
distinct, and every emitted record's requirements were emitted before it. -/
structure TravInv (pm : PackageMap) (root : String) (anc : List String) (st : St) : Prop where
  decomp : ∀ x ∈ st.searched, x ∈ anc ∨ x ∈ names st.transients
  em : ∀ x ∈ names st.transients, x ∈ st.searched
  look : ∀ q ∈ st.transients, lookupPkg pm q.name = some q
  reachT : ∀ x ∈ names st.transients, Reach pm root x
  nd : (names st.transients).Nodup
  ord : depsBeforeAux [] st.transients

/-- Relation between traversal states across a successful call: the invariant
holds afterwards, the result list is extended at the end only, the searched
set grows, and every newly emitted name was unsearched before the call. -/
structure TravPost (pm : PackageMap) (root : String) (anc : List String)
    (st st2 : St) : Prop where
  inv : TravInv pm root anc st2
  app : ∃ suf, st2.transients = st.transients ++ suf
  mono : ∀ x ∈ st.searched, x ∈ st2.searched
  freshN : ∀ x ∈ names st2.transients, x ∈ names st.transients ∨ x ∉ st.searched

/-- A concrete ambient configuration used in the concrete evaluations. -/
def c0 : SysConfig := ⟨"3.8.10", "linux"⟩

/-- A python constraint admitting every interpreter version. -/
def anyPython : String → Bool := fun _ => true

/-- A python constraint admitting no interpreter version. -/
def noPython : String → Bool := fun _ => false

def pkgLinA : PoetryPackage := ⟨"a", "1.0", anyPython, none, [⟨"b"⟩]⟩
def pkgLinB : PoetryPackage := ⟨"b", "1.0", anyPython, none, [⟨"c"⟩]⟩
def pkgLinC : PoetryPackage := ⟨"c", "1.0", anyPython, none, []⟩

/-- The spec's linear example store: A requires B, B requires C, C nothing. -/
def pmLin : PackageMap := [("a", pkgLinA), ("b", pkgLinB), ("c", pkgLinC)]

def pkgCycA : PoetryPackage := ⟨"a", "1.0", anyPython, none, [⟨"b"⟩]⟩
def pkgCycB : PoetryPackage := ⟨"b", "1.0", anyPython, none, [⟨"a"⟩]⟩

/-- The spec's cyclic example store: A requires B, B requires A. -/
def pmCyc : PackageMap := [("a", pkgCycA), ("b", pkgCycB)]

def pkgPruA : PoetryPackage := ⟨"a", "1.0", anyPython, none, [⟨"b"⟩, ⟨"d"⟩]⟩
def pkgPruB : PoetryPackage := ⟨"b", "1.0", noPython, none, [⟨"c"⟩]⟩
def pkgPruC : PoetryPackage := ⟨"c", "1.0", anyPython, none, []⟩
def pkgPruD : PoetryPackage := ⟨"d", "1.0", anyPython, none, [⟨"c"⟩]⟩

/-- Pruning example: `b` fails the interpreter filter and requires `c`, but `c`
is also reachable along the compatible path `a → d → c`. -/
def pmPru : PackageMap :=
  [("a", pkgPruA), ("b", pkgPruB), ("c", pkgPruC), ("d", pkgPruD)]

def pkgMisA : PoetryPackage := ⟨"a", "1.0", anyPython, none, [⟨"m"⟩, ⟨"b"⟩]⟩
def pkgMisB : PoetryPackage := ⟨"b", "1.0", anyPython, none, []⟩

/-- Allow-missing example: `a` requires the absent `m` and the present `b`. -/
def pmMis : PackageMap := [("a", pkgMisA), ("b", pkgMisB)]

def pkgDeepA : PoetryPackage := ⟨"a", "1.0", anyPython, none, [⟨"x"⟩]⟩

/-- Deep-failure example: `a` requires `x`, which is absent from the store. -/
def pmDeep : PackageMap := [("a", pkgDeepA)]

def pkgPip : PoetryPackage := ⟨"pip", "21.0", anyPython, none, [⟨"q"⟩]⟩

/-- A store containing the unsupported package `pip` under its own name. -/
def pmPip : PackageMap := [("pip", pkgPip)]

def pkgShaA : PoetryPackage := ⟨"a", "1.0", anyPython, none, [⟨"c"⟩]⟩
def pkgShaB : PoetryPackage := ⟨"b", "1.0", anyPython, none, [⟨"c"⟩]⟩
def pkgShaC : PoetryPackage := ⟨"c", "1.0", anyPython, none, []⟩

/-- Shared-dependency example: both roots `a` and `b` require `c`. -/
def pmSha : PackageMap := [("a", pkgShaA), ("b", pkgShaB), ("c", pkgShaC)]

def pkgWin : PoetryPackage := ⟨"w", "1.0", anyPython, some "win32", []⟩

/-- A store whose only record declares a platform other than the running one. -/
def pmWin : PackageMap := [("w", pkgWin)]

def pkgFoo : PoetryPackage := ⟨"foo", "1.0", anyPython, none, []⟩

/-- A store keyed by the lowercase name `foo`. -/
def pmFoo : PackageMap := [("foo", pkgFoo)]

def pkgFooX : PoetryPackage := ⟨"foo", "1.0", anyPython, none, [⟨"x"⟩]⟩

/-- A lowercase-keyed store whose only record requires the absent `x`. -/
def pmFooX : PackageMap := [("foo", pkgFooX)]

theorem lookupPkg_mem {pm : PackageMap} {s : String} {p : PoetryPackage}
    (h : lookupPkg pm s = some p) : (s, p) ∈ pm := by
  induction pm with
  | nil => simp [lookupPkg] at h
  | cons kv rest ih =>
    obtain ⟨k, v⟩ := kv
    simp only [lookupPkg] at h
    by_cases hk : k = s
    · rw [if_pos hk] at h
      obtain rfl := Option.some.inj h
      subst hk
      exact List.mem_cons_self _ _
    · rw [if_neg hk] at h
      exact List.mem_cons_of_mem _ (ih h)

theorem mem_depNames {pm : PackageMap} {k : String} {p : PoetryPackage} {d : Dep}
    (hm : (k, p) ∈ pm) (hd : d ∈ p.requires) : d.name ∈ depNames pm := by
  unfold depNames
  rw [List.mem_dedup]
  exact List.mem_flatMap.mpr ⟨(k, p), hm, List.mem_map.mpr ⟨d, hd, rfl⟩⟩

theorem edge_mem_depNames {pm : PackageMap} {a b : String}
    (h : Edge pm a b) : b ∈ depNames pm := by
  obtain ⟨p, hp, d, hd, hdn⟩ := h
  exact hdn ▸ mem_depNames (lookupPkg_mem hp) hd

theorem length_filter_le_of_imp {α : Type} {p q : α → Bool} (l : List α)
    (h : ∀ x ∈ l, q x = true → p x = true) :
    (l.filter q).length ≤ (l.filter p).length := by
  induction l with
  | nil => simp
  | cons a as ih =>
    have ih2 := ih (fun x hx => h x (List.mem_cons_of_mem _ hx))
    by_cases hq : q a = true
    · rw [List.filter_cons_of_pos hq, List.filter_cons_of_pos (h a (List.mem_cons_self _ _) hq)]
      exact Nat.succ_le_succ ih2
    · rw [List.filter_cons_of_neg (by simpa using hq)]
      by_cases hp : p a = true
      · rw [List.filter_cons_of_pos hp]
        exact Nat.le_succ_of_le ih2
      · rw [List.filter_cons_of_neg (by simpa using hp)]
        exact ih2

theorem length_filter_lt_of_imp {α : Type} {p q : α → Bool} (l : List α) (a : α)
    (ha : a ∈ l) (hpa : p a = true) (hqa : q a = false)
    (h : ∀ x ∈ l, q x = true → p x = true) :
    (l.filter q).length < (l.filter p).length := by
  induction l with
  | nil => simp at ha
  | cons b bs ih =>
    have himp := fun x hx => h x (List.mem_cons_of_mem _ hx)
    rcases List.mem_cons.mp ha with hab | hmem
    · subst hab
      rw [List.filter_cons_of_neg (by simp [hqa]), List.filter_cons_of_pos hpa]
      exact Nat.lt_succ_of_le (length_filter_le_of_imp bs himp)
    · have ih2 := ih hmem himp
      by_cases hq : q b = true
      · rw [List.filter_cons_of_pos hq, List.filter_cons_of_pos (h b (List.mem_cons_self _ _) hq)]
        exact Nat.succ_lt_succ ih2
      · rw [List.filter_cons_of_neg (by simpa using hq)]
        by_cases hp : p b = true
        · rw [List.filter_cons_of_pos hp]
          exact Nat.lt_succ_of_lt ih2
        · rw [List.filter_cons_of_neg (by simpa using hp)]
          exact ih2

theorem fresh_mono {pm : PackageMap} {s t : List String}
    (h : ∀ x ∈ s, x ∈ t) : fresh pm t ≤ fresh pm s := by
  unfold fresh
  refine length_filter_le_of_imp _ (fun x _ hx => ?_)
  rw [decide_eq_true_eq] at hx ⊢
  exact fun hmem => hx (h x hmem)

theorem fresh_cons_lt {pm : PackageMap} {s : List String} {a : String}
    (ha : a ∈ depNames pm) (hs : a ∉ s) : fresh pm (a :: s) < fresh pm s := by
  unfold fresh
  refine length_filter_lt_of_imp _ a ha (by simpa using hs) (by simp) ?_
  intro x _ hx
  rw [decide_eq_true_eq] at hx ⊢
  exact fun hmem => hx (List.mem_cons_of_mem _ hmem)

theorem processReqs_pushes {step : String → St → Option (Except ResolveError St)}
    (hstep : ∀ nm st st2, step nm st = some (.ok st2) →
      ∀ x ∈ st.searched, x ∈ st2.searched) :
    ∀ reqs st st2, processReqs step reqs st = some (.ok st2) →
      ∀ x ∈ st.searched, x ∈ st2.searched := by
  intro reqs
  induction reqs with
  | nil =>
    intro st st2 h
    simp only [processReqs, Option.some.injEq, Except.ok.injEq] at h
    subst h
    exact fun x hx => hx
  | cons d rest ih =>
    intro st st2 h x hx
    simp only [processReqs] at h
    by_cases hm : d.name ∈ st.searched
    · rw [if_pos hm] at h
      exact ih st st2 h x hx
    · rw [if_neg hm] at h
      cases hs : step d.name st with
      | none => rw [hs] at h; simp at h
      | some r =>
        rw [hs] at h
        cases r with
        | error e => simp at h
        | ok st1 => exact ih st1 st2 h x (hstep d.name st st1 hs x hx)

theorem fds_pushes (cfg : SysConfig) (u : List String) (pm : PackageMap)
    (am : List String) :
    ∀ n nm st st2, find_deps_of_deps cfg u pm am n nm st = some (.ok st2) →
      ∀ x, x = nm ∨ x ∈ st.searched → x ∈ st2.searched := by
  intro n
  induction n with
  | zero =>
    intro nm st st2 h
    simp [find_deps_of_deps] at h
  | succ n ih =>
    intro nm st st2 h x hx
    have hx1 : x ∈ nm :: st.searched := List.mem_cons.mpr hx
    simp only [find_deps_of_deps] at h
    by_cases h1 : nm ∈ u
    · rw [if_pos h1] at h
      simp only [Option.some.injEq, Except.ok.injEq] at h
      subst h
      exact hx1
    · rw [if_neg h1] at h
      cases hl : lookupPkg pm nm with
      | none =>
        rw [hl] at h
        dsimp only at h
        by_cases h2 : nm ∈ am
        · rw [if_pos h2] at h
          simp only [Option.some.injEq, Except.ok.injEq] at h
          subst h
          exact hx1
        · rw [if_neg h2] at h
          simp at h
      | some p =>
        rw [hl] at h
        dsimp only at h
        by_cases h3 : p.pythonConstraint cfg.pythonVersion = false
        · rw [if_pos h3] at h
          simp only [Option.some.injEq, Except.ok.injEq] at h
          subst h
          exact hx1
        · rw [if_neg h3] at h
          by_cases h4 : platformIncompatible cfg p = true
          · rw [if_pos h4] at h
            simp only [Option.some.injEq, Except.ok.injEq] at h
            subst h
            exact hx1
          · rw [if_neg h4] at h
            cases hq : processReqs (find_deps_of_deps cfg u pm am n) p.requires
                { st with searched := nm :: st.searched } with
            | none => rw [hq] at h; simp at h
            | some r =>
              rw [hq] at h
              cases r with
              | error e => simp at h
              | ok st1 =>
                simp only [Option.some.injEq, Except.ok.injEq] at h
                subst h
                exact processReqs_pushes
                  (fun nm' st' st2' h' x' hx' => ih nm' st' st2' h' x' (Or.inr hx'))
                  p.requires _ st1 hq x hx1

theorem processReqs_fuel (cfg : SysConfig) (u : List String) (pm : PackageMap)
    (am : List String) (n : Nat)
    (hne : ∀ nm st, fresh pm (nm :: st.searched) < n →
      find_deps_of_deps cfg u pm am n nm st ≠ none) :
    ∀ reqs st, (∀ d ∈ reqs, d.name ∈ depNames pm) → fresh pm st.searched ≤ n →
      processReqs (find_deps_of_deps cfg u pm am n) reqs st ≠ none := by
  intro reqs
  induction reqs with
  | nil => intro st _ _; simp [processReqs]
  | cons d rest ih =>
    intro st hball hf
    simp only [processReqs]
    by_cases hm : d.name ∈ st.searched
    · rw [if_pos hm]
      exact ih st (fun d' hd' => hball d' (List.mem_cons_of_mem _ hd')) hf
    · rw [if_neg hm]
      have hfd : fresh pm (d.name :: st.searched) < n :=
        Nat.lt_of_lt_of_le (fresh_cons_lt (hball d (List.mem_cons_self _ _)) hm) hf
      cases hs : find_deps_of_deps cfg u pm am n d.name st with
      | none => exact absurd hs (hne d.name st hfd)
      | some r =>
        cases r with
        | error e => simp
        | ok st1 =>
          have hgrow : ∀ x, x ∈ d.name :: st.searched → x ∈ st1.searched := by
            intro x hx
            exact fds_pushes cfg u pm am n d.name st st1 hs x (List.mem_cons.mp hx)
          have hf1 : fresh pm st1.searched ≤ n :=
            Nat.le_of_lt (Nat.lt_of_le_of_lt (fresh_mono hgrow) hfd)
          exact ih st1 (fun d' hd' => hball d' (List.mem_cons_of_mem _ hd')) hf1

theorem fds_fuel (cfg : SysConfig) (u : List String) (pm : PackageMap)
    (am : List String) :
    ∀ n nm st, fresh pm (nm :: st.searched) < n →
      find_deps_of_deps cfg u pm am n nm st ≠ none := by
  intro n
  induction n with
  | zero => intro nm st h; exact absurd h (Nat.not_lt_zero _)
  | succ n ih =>
    intro nm st hf
    simp only [find_deps_of_deps]
    by_cases h1 : nm ∈ u
    · rw [if_pos h1]; simp
    · rw [if_neg h1]
      cases hl : lookupPkg pm nm with
      | none =>
        dsimp only
        by_cases h2 : nm ∈ am
        · rw [if_pos h2]; simp
        · rw [if_neg h2]; simp
      | some p =>
        dsimp only
        by_cases h3 : p.pythonConstraint cfg.pythonVersion = false
        · rw [if_pos h3]; simp
        · rw [if_neg h3]
          by_cases h4 : platformIncompatible cfg p = true
          · rw [if_pos h4]; simp
          · rw [if_neg h4]
            have hreqs : ∀ d ∈ p.requires, d.name ∈ depNames pm :=
              fun d hd => mem_depNames (lookupPkg_mem hl) hd
            have hf1 : fresh pm (nm :: st.searched) ≤ n := Nat.lt_succ_iff.mp hf
            have := processReqs_fuel cfg u pm am n ih p.requires
              { st with searched := nm :: st.searched } hreqs hf1
            cases hq : processReqs (find_deps_of_deps cfg u pm am n) p.requires
                { st with searched := nm :: st.searched } with
            | none => exact absurd hq this
            | some r => cases r with
              | error e => simp
              | ok st1 => simp

theorem fresh_lt_sufficientFuel (pm : PackageMap) (nm : String) :
    fresh pm [nm] < sufficientFuel pm :=
  Nat.lt_succ_of_le (List.length_filter_le _ _)

/-- Claim C2: for every store, including ones whose requires edges form
cycles, `identify_transients` terminates (the fuel bound is never hit, so the
embedding returns a value) and in particular, on the cyclic store
{A: requires [B], B: requires [A]}, the call on "a" returns [B, A]. -/
theorem C2_cyclic_termination :
    (∀ (cfg : SysConfig) (u : List String) (pm : PackageMap) (N : String)
      (am : List String), ∃ r, identify_transients cfg u pm N am = some r) ∧
    identify_transients c0 [] pmCyc "a" [] = some (.ok [pkgCycB, pkgCycA]) := by
  constructor
  · intro cfg u pm N am
    unfold identify_transients
    cases hl : lookupPkg pm N with
    | none => exact ⟨_, rfl⟩
    | some p =>
      dsimp only
      have hne := fds_fuel cfg u pm am (sufficientFuel pm) p.name
        { searched := [], transients := [] } (fresh_lt_sufficientFuel pm p.name)
      cases hq : find_deps_of_deps cfg u pm am (sufficientFuel pm) p.name
          { searched := [], transients := [] } with
      | none => exact absurd hq hne
      | some r =>
        cases r with
        | ok st => exact ⟨_, rfl⟩
        | error e => cases e <;> exact ⟨_, rfl⟩
  · rfl

theorem depsBeforeAux_concat {s : List String} {l : List PoetryPackage}
    {p : PoetryPackage} (h : depsBeforeAux s l)
    (hp : ∀ d ∈ p.requires, d.name ∈ names l ∨ d.name ∈ s) :
    depsBeforeAux s (l ++ [p]) := by
  induction l generalizing s with
  | nil =>
    refine ⟨?_, trivial⟩
    intro d hd
    rcases hp d hd with h1 | h2
    · simp [names] at h1
    · exact h2
  | cons q rest ih =>
    obtain ⟨hq, hrest⟩ := h
    refine ⟨hq, ih hrest ?_⟩
    intro d hd
    rcases hp d hd with h1 | h2
    · simp only [names, List.map_cons] at h1
      rcases List.mem_cons.mp h1 with h3 | h4
      · exact Or.inr (h3 ▸ List.mem_cons_self _ _)
      · exact Or.inl h4
    · exact Or.inr (List.mem_cons_of_mem _ h2)

theorem depsBeforeAux_closed {s : List String} {l : List PoetryPackage}
    (h : depsBeforeAux s l) :
    ∀ q ∈ l, ∀ d ∈ q.requires, d.name ∈ names l ∨ d.name ∈ s := by
  induction l generalizing s with
  | nil => intro q hq; exact absurd hq (List.not_mem_nil q)
  | cons r rest ih =>
    obtain ⟨hr, hrest⟩ := h
    intro q hq d hd
    rcases List.mem_cons.mp hq with rfl | hmem
    · exact Or.inr (hr d hd)
    · rcases ih hrest q hmem d hd with h1 | h2
      · exact Or.inl (by
          simp only [names, List.map_cons]
          exact List.mem_cons_of_mem _ h1)
      · rcases List.mem_cons.mp h2 with h3 | h4
        · exact Or.inl (by
            simp only [names, List.map_cons]
            exact h3 ▸ List.mem_cons_self _ _)
        · exact Or.inr h4

theorem reach_mem_names {pm : PackageMap} {root : String} {l : List PoetryPackage}
    (hroot : root ∈ names l) (hlook : ∀ q ∈ l, lookupPkg pm q.name = some q)
    (hclosed : ∀ q ∈ l, ∀ d ∈ q.requires, d.name ∈ names l) :
    ∀ y, Reach pm root y → y ∈ names l := by
  intro y h
  induction h with
  | refl => exact hroot
  | tail h1 h2 ih =>
    obtain ⟨q, hq, hqn⟩ := List.mem_map.mp ih
    obtain ⟨p2, hp2, d, hd, hdn⟩ := h2
    have hlq := hlook q hq
    rw [hqn] at hlq
    rw [hlq] at hp2
    obtain rfl := Option.some.inj hp2
    exact hdn ▸ hclosed q hq d hd

theorem travPost_refl {pm : PackageMap} {root : String} {anc : List String}
    {st : St} (hinv : TravInv pm root anc st) : TravPost pm root anc st st :=
  ⟨hinv, ⟨[], (List.append_nil _).symm⟩, fun _ hx => hx, fun _ hx => Or.inl hx⟩

theorem travPost_trans {pm : PackageMap} {root : String} {anc : List String}
    {st st1 st2 : St} (h1 : TravPost pm root anc st st1)
    (h2 : TravPost pm root anc st1 st2) : TravPost pm root anc st st2 := by
  refine ⟨h2.inv, ?_, fun x hx => h2.mono x (h1.mono x hx), ?_⟩
  · obtain ⟨s1, e1⟩ := h1.app
    obtain ⟨s2, e2⟩ := h2.app
    exact ⟨s1 ++ s2, by rw [e2, e1, List.append_assoc]⟩
  · intro x hx
    rcases h2.freshN x hx with h3 | h3
    · exact h1.freshN x h3
    · exact Or.inr (fun hmem => h3 (h1.mono x hmem))

theorem processReqs_spec (cfg : SysConfig) (u : List String) (pm : PackageMap)
    (am : List String) (root : String) (n : Nat)
    (hstep : ∀ (name : String) (st : St) (anc : List String),
      fresh pm (name :: st.searched) < n →
      Reach pm root name → name ∉ st.searched →
      (∀ a ∈ anc, Reach pm root a ∧ Relation.TransGen (Edge pm) a name) →
      TravInv pm root anc st →
      ∃ st2, find_deps_of_deps cfg u pm am n name st = some (.ok st2) ∧
        name ∈ names st2.transients ∧ TravPost pm root anc st st2) :
    ∀ (reqs : List Dep) (st : St) (cur : String) (anc : List String),
      (∀ d ∈ reqs, Edge pm cur d.name) →
      fresh pm st.searched ≤ n →
      Reach pm root cur →
      (∀ a ∈ anc, Reach pm root a ∧ Relation.TransGen (Edge pm) a cur) →
      TravInv pm root (cur :: anc) st →
      ∃ st2, processReqs (find_deps_of_deps cfg u pm am n) reqs st =
          some (.ok st2) ∧
        (∀ d ∈ reqs, d.name ∈ st2.searched) ∧ fresh pm st2.searched ≤ n ∧
        TravPost pm root (cur :: anc) st st2 := by
  intro reqs
  induction reqs with
  | nil =>
    intro st cur anc _ hf _ _ hinv
    exact ⟨st, rfl, by simp, hf, travPost_refl hinv⟩
  | cons d rest ih =>
    intro st cur anc hreqs hf hcur hanc hinv
    by_cases hmem : d.name ∈ st.searched
    · obtain ⟨st2, heq, hdall, hf2, hpost⟩ :=
        ih st cur anc (fun d2 hd2 => hreqs d2 (List.mem_cons_of_mem _ hd2))
          hf hcur hanc hinv
      refine ⟨st2, ?_, ?_, hf2, hpost⟩
      · simp only [processReqs]
        rw [if_pos hmem]
        exact heq
      · intro d2 hd2
        rcases List.mem_cons.mp hd2 with rfl | hd3
        · exact hpost.mono _ hmem
        · exact hdall d2 hd3
    · have hedge := hreqs d (List.mem_cons_self _ _)
      have hdn : d.name ∈ depNames pm := edge_mem_depNames hedge
      have hfd : fresh pm (d.name :: st.searched) < n :=
        Nat.lt_of_lt_of_le (fresh_cons_lt hdn hmem) hf
      have hrd : Reach pm root d.name := Relation.ReflTransGen.tail hcur hedge
      have hanc2 : ∀ a ∈ cur :: anc, Reach pm root a ∧
          Relation.TransGen (Edge pm) a d.name := by
        intro a ha
        rcases List.mem_cons.mp ha with rfl | ha2
        · exact ⟨hcur, Relation.TransGen.single hedge⟩
        · exact ⟨(hanc a ha2).1, Relation.TransGen.tail (hanc a ha2).2 hedge⟩
      obtain ⟨st1, heq1, hdmem1, hpost1⟩ :=
        hstep d.name st (cur :: anc) hfd hrd hmem hanc2 hinv
      have hdse : d.name ∈ st1.searched := hpost1.inv.em _ hdmem1
      have hgrow : ∀ x ∈ d.name :: st.searched, x ∈ st1.searched := by
        intro x hx
        rcases List.mem_cons.mp hx with rfl | hx2
        · exact hdse
        · exact hpost1.mono _ hx2
      have hf1 : fresh pm st1.searched ≤ n :=
        Nat.le_of_lt (Nat.lt_of_le_of_lt (fresh_mono hgrow) hfd)
      obtain ⟨st2, heq2, hdall2, hf2, hpost2⟩ :=
        ih st1 cur anc (fun d2 hd2 => hreqs d2 (List.mem_cons_of_mem _ hd2))
          hf1 hcur hanc hpost1.inv
      refine ⟨st2, ?_, ?_, hf2, travPost_trans hpost1 hpost2⟩
      · simp only [processReqs]
        rw [if_neg hmem, heq1]
        exact heq2
      · intro d2 hd2
        rcases List.mem_cons.mp hd2 with rfl | hd3
        · exact hpost2.mono _ hdse
        · exact hdall2 d2 hd3

theorem fds_spec (cfg : SysConfig) (u : List String) (pm : PackageMap)
    (am : List String) (root : String)
    (hgood : GoodStore cfg u pm root) (hacyc : Acyclic pm root) :
    ∀ (n : Nat) (name : String) (st : St) (anc : List String),
      fresh pm (name :: st.searched) < n →
      Reach pm root name →
      name ∉ st.searched →
      (∀ a ∈ anc, Reach pm root a ∧ Relation.TransGen (Edge pm) a name) →
      TravInv pm root anc st →
      ∃ st2, find_deps_of_deps cfg u pm am n name st = some (.ok st2) ∧
        name ∈ names st2.transients ∧ TravPost pm root anc st st2 := by
  intro n
  induction n with
  | zero =>
    intro name st anc hfuel
    exact absurd hfuel (Nat.not_lt_zero _)
  | succ n ih =>
    intro name st anc hfuel hreach hnew hanc hinv
    obtain ⟨hnu, p, hp, hpname, hpy, hplat⟩ := hgood name hreach
    have hpif : platformIncompatible cfg p = false := by
      unfold platformIncompatible
      cases hpl : p.platform with
      | none => rfl
      | some pl => simp [hplat pl hpl]
    have hinv1 : TravInv pm root (name :: anc)
        { st with searched := name :: st.searched } := by
      refine ⟨?_, ?_, hinv.look, hinv.reachT, hinv.nd, hinv.ord⟩
      · intro x hx
        rcases List.mem_cons.mp hx with rfl | hx2
        · exact Or.inl (List.mem_cons_self _ _)
        · rcases hinv.decomp x hx2 with h1 | h2
          · exact Or.inl (List.mem_cons_of_mem _ h1)
          · exact Or.inr h2
      · intro x hx
        exact List.mem_cons_of_mem _ (hinv.em x hx)
    have hreqs : ∀ d ∈ p.requires, Edge pm name d.name :=
      fun d hd => ⟨p, hp, d, hd, rfl⟩
    have hf1 : fresh pm (name :: st.searched) ≤ n := Nat.lt_succ_iff.mp hfuel
    obtain ⟨st2, heq2, hdall, hf2, hpost2⟩ :=
      processReqs_spec cfg u pm am root n ih p.requires
        { st with searched := name :: st.searched } name anc hreqs hf1 hreach
        hanc hinv1
    have hdeps : ∀ d ∈ p.requires, d.name ∈ names st2.transients := by
      intro d hd
      have hds := hdall d hd
      rcases hpost2.inv.decomp _ hds with hmem1 | hmem2
      · rcases List.mem_cons.mp hmem1 with heqn | hmem3
        · exact absurd (Relation.TransGen.single (⟨p, hp, d, hd, heqn⟩ :
            Edge pm name name)) (hacyc name hreach)
        · have h5 := hanc d.name hmem3
          exact absurd (Relation.TransGen.tail h5.2
            (⟨p, hp, d, hd, rfl⟩ : Edge pm name d.name)) (hacyc d.name h5.1)
      · exact hmem2
    have hnameNot2 : name ∉ names st2.transients := by
      intro hmem
      rcases hpost2.freshN _ hmem with h1 | h2
      · exact hnew (hinv.em _ h1)
      · exact h2 (List.mem_cons_self _ _)
    refine ⟨{ st2 with transients := st2.transients ++ [p] }, ?_, ?_,
      ⟨?_, ?_, ?_, ?_, ?_, ?_⟩, ?_, ?_, ?_⟩
    · simp only [find_deps_of_deps]
      rw [if_neg hnu, hp]
      dsimp only
      rw [if_neg (by simp [hpy]), if_neg (by simp [hpif]), heq2]
    · simp only [names, List.map_append, List.map_cons, List.map_nil]
      exact List.mem_append.mpr (Or.inr (by simp [hpname]))
    · intro x hx
      rcases hpost2.inv.decomp x hx with h1 | h2
      · rcases List.mem_cons.mp h1 with rfl | h3
        · refine Or.inr ?_
          simp only [names, List.map_append, List.map_cons, List.map_nil]
          exact List.mem_append.mpr (Or.inr (by simp [hpname]))
        · exact Or.inl h3
      · refine Or.inr ?_
        simp only [names, List.map_append]
        exact List.mem_append_left _ h2
    · intro x hx
      simp only [names, List.map_append, List.map_cons, List.map_nil] at hx
      rcases List.mem_append.mp hx with h1 | h2
      · exact hpost2.inv.em x h1
      · have hxe : x = name := by simpa [hpname] using h2
        subst hxe
        exact hpost2.mono _ (List.mem_cons_self _ _)
    · intro q hq
      rcases List.mem_append.mp hq with h1 | h2
      · exact hpost2.inv.look q h1
      · rw [List.mem_singleton] at h2
        subst h2
        rw [hpname]
        exact hp
    · intro x hx
      simp only [names, List.map_append, List.map_cons, List.map_nil] at hx
      rcases List.mem_append.mp hx with h1 | h2
      · exact hpost2.inv.reachT x h1
      · have hxe : x = name := by simpa [hpname] using h2
        subst hxe
        exact hreach
    · simp only [names, List.map_append, List.map_cons, List.map_nil]
      rw [List.nodup_append]
      refine ⟨hpost2.inv.nd, List.nodup_singleton _, fun a ha hb => ?_⟩
      rw [List.mem_singleton] at hb
      subst hb
      rw [hpname] at ha
      exact hnameNot2 ha
    · exact depsBeforeAux_concat hpost2.inv.ord
        (fun d hd => Or.inl (hdeps d hd))
    · obtain ⟨suf, hsuf⟩ := hpost2.app
      exact ⟨suf ++ [p], by rw [hsuf, List.append_assoc]⟩
    · exact fun x hx => hpost2.mono x (List.mem_cons_of_mem _ hx)
    · intro x hx
      simp only [names, List.map_append, List.map_cons, List.map_nil] at hx
      rcases List.mem_append.mp hx with h1 | h2
      · rcases hpost2.freshN x h1 with h3 | h3
        · exact Or.inl h3
        · exact Or.inr (fun hmem => h3 (List.mem_cons_of_mem _ hmem))
      · have hxe : x = name := by simpa [hpname] using h2
        subst hxe
        exact Or.inr hnew

/-- Claim C1: for a store whose subgraph reachable from a present root is
acyclic, free of unsupported names, and free of interpreter- or
platform-incompatible records, `identify_transients` succeeds with a list
that contains the root's record and a record for exactly the transitively
reachable names, each exactly once, with every record's requirements
appearing strictly earlier in the list (post-order); in particular the store
{A: requires [B], B: requires [C], C: requires []} resolves "a" to
[C, B, A]. -/
theorem C1_postorder :
    (∀ (cfg : SysConfig) (u : List String) (pm : PackageMap) (am : List String)
      (N : String), GoodStore cfg u pm N → Acyclic pm N →
      ∃ l, identify_transients cfg u pm N am = some (.ok l) ∧
        N ∈ names l ∧ (∀ x, Reach pm N x ↔ x ∈ names l) ∧
        (names l).Nodup ∧ depsBefore l) ∧
    identify_transients c0 [] pmLin "a" [] =
      some (.ok [pkgLinC, pkgLinB, pkgLinA]) := by
  constructor
  · intro cfg u pm am N hgood hacyc
    obtain ⟨hnu, p, hp, hpname, hpy, hplat⟩ := hgood N Relation.ReflTransGen.refl
    have hinv0 : TravInv pm N [] { searched := [], transients := [] } :=
      ⟨fun x hx => absurd hx (List.not_mem_nil x),
       fun x hx => absurd hx (List.not_mem_nil x),
       fun q hq => absurd hq (List.not_mem_nil q),
       fun x hx => absurd hx (List.not_mem_nil x),
       List.nodup_nil, trivial⟩
    obtain ⟨st2, heq, hmemN, hpost⟩ :=
      fds_spec cfg u pm am N hgood hacyc (sufficientFuel pm) N
        { searched := [], transients := [] } []
        (fresh_lt_sufficientFuel pm N)
        Relation.ReflTransGen.refl
        (List.not_mem_nil N)
        (fun a ha => absurd ha (List.not_mem_nil a))
        hinv0
    refine ⟨st2.transients, ?_, hmemN, ?_, hpost.inv.nd, hpost.inv.ord⟩
    · unfold identify_transients
      rw [hp]
      dsimp only
      rw [hpname, heq]
    · intro x
      constructor
      · refine fun hr => reach_mem_names hmemN hpost.inv.look ?_ x hr
        intro q hq d hd
        rcases depsBeforeAux_closed hpost.inv.ord q hq d hd with h1 | h2
        · exact h1
        · exact absurd h2 (List.not_mem_nil _)
      · exact hpost.inv.reachT x
  · rfl

theorem edge_pmLin : ∀ x y, Edge pmLin x y →
    (x = "a" ∧ y = "b") ∨ (x = "b" ∧ y = "c") := by
  intro x y h
  obtain ⟨p, hp, d, hd, hdn⟩ := h
  simp only [pmLin, lookupPkg] at hp
  by_cases h1 : "a" = x
  · rw [if_pos h1] at hp
    obtain rfl := Option.some.inj hp
    have hdb : d = (⟨"b"⟩ : Dep) := by simpa [pkgLinA] using hd
    subst hdb
    exact Or.inl ⟨h1.symm, by rw [← hdn]⟩
  · rw [if_neg h1] at hp
    by_cases h2 : "b" = x
    · rw [if_pos h2] at hp
      obtain rfl := Option.some.inj hp
      have hdc : d = (⟨"c"⟩ : Dep) := by simpa [pkgLinB] using hd
      subst hdc
      exact Or.inr ⟨h2.symm, by rw [← hdn]⟩
    · rw [if_neg h2] at hp
      by_cases h3 : "c" = x
      · rw [if_pos h3] at hp
        obtain rfl := Option.some.inj hp
        simp [pkgLinC] at hd
      · rw [if_neg h3] at hp
        simp at hp

theorem tg_pmLin : ∀ x y, Relation.TransGen (Edge pmLin) x y →
    (x = "a" ∧ y = "b") ∨ (x = "b" ∧ y = "c") ∨ (x = "a" ∧ y = "c") := by
  intro x y h
  induction h with
  | single h1 =>
    rcases edge_pmLin _ _ h1 with h2 | h2
    · exact Or.inl h2
    · exact Or.inr (Or.inl h2)
  | tail h1 h2 ih =>
    rcases edge_pmLin _ _ h2 with ⟨hb1, hb2⟩ | ⟨hb1, hb2⟩
    · rcases ih with ⟨hc1, hc2⟩ | ⟨hc1, hc2⟩ | ⟨hc1, hc2⟩
      · exact absurd (hc2.symm.trans hb1) (by decide)
      · exact absurd (hc2.symm.trans hb1) (by decide)
      · exact absurd (hc2.symm.trans hb1) (by decide)
    · rcases ih with ⟨hc1, hc2⟩ | ⟨hc1, hc2⟩ | ⟨hc1, hc2⟩
      · exact Or.inr (Or.inr ⟨hc1, hb2⟩)
      · exact absurd (hc2.symm.trans hb1) (by decide)
      · exact absurd (hc2.symm.trans hb1) (by decide)

theorem acyc_pmLin : Acyclic pmLin "a" := by
  intro x _ htg
  rcases tg_pmLin x x htg with ⟨h1, h2⟩ | ⟨h1, h2⟩ | ⟨h1, h2⟩ <;>
    exact absurd (h1.symm.trans h2) (by decide)

theorem reach_pmLin : ∀ x, Reach pmLin "a" x → x = "a" ∨ x = "b" ∨ x = "c" := by
  intro x h
  rcases Relation.reflTransGen_iff_eq_or_transGen.mp h with h1 | h1
  · exact Or.inl h1
  · rcases tg_pmLin _ _ h1 with ⟨_, h2⟩ | ⟨h2, _⟩ | ⟨_, h2⟩
    · exact Or.inr (Or.inl h2)
    · exact absurd h2 (by decide)
    · exact Or.inr (Or.inr h2)

theorem good_pmLin : GoodStore c0 [] pmLin "a" := by
  intro x hx
  rcases reach_pmLin x hx with rfl | rfl | rfl
  · exact ⟨List.not_mem_nil _, pkgLinA, rfl, rfl, rfl, fun pl h => by cases h⟩
  · exact ⟨List.not_mem_nil _, pkgLinB, rfl, rfl, rfl, fun pl h => by cases h⟩
  · exact ⟨List.not_mem_nil _, pkgLinC, rfl, rfl, rfl, fun pl h => by cases h⟩

theorem C1_witness :
    ∃ l, identify_transients c0 [] pmLin "a" [] = some (.ok l) ∧
      "a" ∈ names l ∧ (∀ x, Reach pmLin "a" x ↔ x ∈ names l) ∧
      (names l).Nodup ∧ depsBefore l :=
  C1_postorder.1 c0 [] pmLin [] "a" good_pmLin acyc_pmLin

theorem identify_root_missing (cfg : SysConfig) (u : List String) (pm : PackageMap)
    (am : List String) (N : String) (hl : lookupPkg pm N = none) :
    identify_transients cfg u pm N am = some (handleRootKeyError u N) := by
  unfold identify_transients
  rw [hl]

/-- Claim C3: for a root name absent from the store and not unsupported, the
raised error is `LockedDepVersionConflictError` exactly when the name contains
a version-delimiter character, and `LockedDepNotFoundError` exactly when it
does not — never the reverse. -/
theorem C3_root_error_classification :
    ∀ (cfg : SysConfig) (u : List String) (pm : PackageMap) (am : List String)
      (N : String), lookupPkg pm N = none → N ∉ u →
      (hasVersionDelimiter N = true →
        identify_transients cfg u pm N am =
          some (.error (.lockedDepVersionConflict N))) ∧
      (hasVersionDelimiter N = false →
        identify_transients cfg u pm N am =
          some (.error (.lockedDepNotFound N))) := by
  intro cfg u pm am N hl hu
  have hbase := identify_root_missing cfg u pm am N hl
  constructor
  · intro hd
    rw [hbase]
    unfold handleRootKeyError
    rw [if_neg hu, if_pos hd]
  · intro hd
    rw [hbase]
    unfold handleRootKeyError
    rw [if_neg hu, if_neg (by simp [hd])]

theorem C3_witness :
    lookupPkg ([] : PackageMap) "foo>=1.0" = none ∧
    hasVersionDelimiter "foo>=1.0" = true ∧
    identify_transients c0 [] [] "foo>=1.0" [] =
      some (.error (.lockedDepVersionConflict "foo>=1.0")) ∧
    hasVersionDelimiter "foo" = false ∧
    identify_transients c0 [] [] "foo" [] =
      some (.error (.lockedDepNotFound "foo")) :=
  ⟨rfl, rfl,
    (C3_root_error_classification c0 [] [] [] "foo>=1.0" rfl (by simp)).1 rfl,
    rfl,
    (C3_root_error_classification c0 [] [] [] "foo" rfl (by simp)).2 rfl⟩

/-- Claim C10: the allow-missing tolerance never applies to the root name:
a root that is absent, not unsupported and delimiter-free raises
`LockedDepNotFoundError` even when it is a member of `allow_missing`, because
the root lookup happens outside the recursive helper. -/
theorem C10_root_ignores_allow_missing :
    ∀ (cfg : SysConfig) (u : List String) (pm : PackageMap) (am : List String)
      (N : String), lookupPkg pm N = none → N ∉ u →
      hasVersionDelimiter N = false → N ∈ am →
      identify_transients cfg u pm N am =
        some (.error (.lockedDepNotFound N)) := by
  intro cfg u pm am N hl hu hd _
  rw [identify_root_missing cfg u pm am N hl]
  unfold handleRootKeyError
  rw [if_neg hu, if_neg (by simp [hd])]

theorem C10_witness :
    lookupPkg ([] : PackageMap) "m" = none ∧ hasVersionDelimiter "m" = false ∧
    ("m" ∈ ["m"]) ∧
    identify_transients c0 [] [] "m" ["m"] =
      some (.error (.lockedDepNotFound "m")) :=
  ⟨rfl, rfl, by simp,
    C10_root_ignores_allow_missing c0 [] [] ["m"] "m" rfl (by simp) rfl (by simp)⟩

/-- Claim C5: an unsupported package name as root makes `identify_transients`
return the empty list without error (present in the store or not), and an
unsupported name encountered mid-traversal is skipped: it is marked searched
but nothing is emitted, no requirements of it are recursed into, and the call
succeeds. -/
theorem C5_unsupported_packages :
    (∀ (cfg : SysConfig) (u : List String) (pm : PackageMap) (am : List String)
      (N : String), N ∈ u → (∀ p, lookupPkg pm N = some p → p.name = N) →
      identify_transients cfg u pm N am = some (.ok [])) ∧
    (∀ (cfg : SysConfig) (u : List String) (pm : PackageMap) (am : List String)
      (n : Nat) (name : String) (st : St), name ∈ u →
      find_deps_of_deps cfg u pm am (n + 1) name st =
        some (.ok { st with searched := name :: st.searched })) := by
  have hmid : ∀ (cfg : SysConfig) (u : List String) (pm : PackageMap)
      (am : List String) (n : Nat) (name : String) (st : St), name ∈ u →
      find_deps_of_deps cfg u pm am (n + 1) name st =
        some (.ok { st with searched := name :: st.searched }) := by
    intro cfg u pm am n name st hu
    simp only [find_deps_of_deps]
    rw [if_pos hu]
  refine ⟨?_, hmid⟩
  intro cfg u pm am N hu hname
  unfold identify_transients
  cases hl : lookupPkg pm N with
  | none =>
    dsimp only
    unfold handleRootKeyError
    rw [if_pos hu]
  | some p =>
    dsimp only
    rw [hname p hl]
    rw [show sufficientFuel pm = (depNames pm).length + 1 from rfl]
    rw [hmid cfg u pm am (depNames pm).length N { searched := [], transients := [] } hu]

theorem C5_witness :
    ("pip" ∈ ["pip"]) ∧ lookupPkg pmPip "pip" = some pkgPip ∧
    identify_transients c0 ["pip"] pmPip "pip" [] = some (.ok []) ∧
    find_deps_of_deps c0 ["pip"] pmPip [] 1 "pip"
      { searched := ["z"], transients := [] } =
      some (.ok { searched := ["pip", "z"], transients := [] }) :=
  ⟨by simp, rfl,
    C5_unsupported_packages.1 c0 ["pip"] pmPip [] "pip" (by simp)
      (fun p h => by
        injection (show some pkgPip = some p from h) with h2
        rw [← h2]
        rfl),
    C5_unsupported_packages.2 c0 ["pip"] pmPip [] 0 "pip" ⟨["z"], []⟩ (by simp)⟩

/-- Claim C6: a transitive requirement that is absent from the store but
listed in `allow_missing` is skipped (marked searched, nothing emitted, no
failure), and the surrounding `identify_transients` call succeeds with the
records of the unaffected parts of the graph. -/
theorem C6_allow_missing_edge :
    (∀ (cfg : SysConfig) (u : List String) (pm : PackageMap) (am : List String)
      (n : Nat) (name : String) (st : St), name ∉ u → lookupPkg pm name = none →
      name ∈ am →
      find_deps_of_deps cfg u pm am (n + 1) name st =
        some (.ok { st with searched := name :: st.searched })) ∧
    identify_transients c0 [] pmMis "a" ["m"] =
      some (.ok [pkgMisB, pkgMisA]) := by
  constructor
  · intro cfg u pm am n name st hu hl ham
    simp only [find_deps_of_deps]
    rw [if_neg hu, hl]
    dsimp only
    rw [if_pos ham]
  · rfl

theorem C6_witness :
    lookupPkg pmMis "m" = none ∧ ("m" ∈ ["m"]) ∧
    find_deps_of_deps c0 [] pmMis ["m"] 1 "m"
      { searched := ["a"], transients := [] } =
      some (.ok { searched := ["m", "a"], transients := [] }) :=
  ⟨rfl, by simp,
    C6_allow_missing_edge.1 c0 [] pmMis ["m"] 0 "m" ⟨["a"], []⟩ (by simp) rfl (by simp)⟩

/-- Claim C4: a record failing the interpreter-version filter (or declaring a
different platform) is skipped and its subtree pruned without error, while a
dependency of it that is also reachable along a compatible path still appears
via that path (concretely: `b` is pruned but `c` appears via `a → d → c`). -/
theorem C4_incompatible_pruning :
    (∀ (cfg : SysConfig) (u : List String) (pm : PackageMap) (am : List String)
      (n : Nat) (name : String) (st : St) (p : PoetryPackage), name ∉ u →
      lookupPkg pm name = some p → p.pythonConstraint cfg.pythonVersion = false →
      find_deps_of_deps cfg u pm am (n + 1) name st =
        some (.ok { st with searched := name :: st.searched })) ∧
    (∀ (cfg : SysConfig) (u : List String) (pm : PackageMap) (am : List String)
      (n : Nat) (name : String) (st : St) (p : PoetryPackage) (pl : String),
      name ∉ u → lookupPkg pm name = some p →
      p.pythonConstraint cfg.pythonVersion = true → p.platform = some pl →
      pl ≠ cfg.platform →
      find_deps_of_deps cfg u pm am (n + 1) name st =
        some (.ok { st with searched := name :: st.searched })) ∧
    identify_transients c0 [] pmPru "a" [] =
      some (.ok [pkgPruC, pkgPruD, pkgPruA]) ∧
    "c" ∈ names [pkgPruC, pkgPruD, pkgPruA] ∧
    "b" ∉ names [pkgPruC, pkgPruD, pkgPruA] := by
  refine ⟨?_, ?_, rfl, ?_, ?_⟩
  · intro cfg u pm am n name st p hu hl hpy
    simp only [find_deps_of_deps]
    rw [if_neg hu, hl]
    dsimp only
    rw [if_pos hpy]
  · intro cfg u pm am n name st p pl hu hl hpy hplat hne
    simp only [find_deps_of_deps]
    rw [if_neg hu, hl]
    dsimp only
    rw [if_neg (by simp [hpy])]
    have hpi : platformIncompatible cfg p = true := by
      unfold platformIncompatible
      rw [hplat]
      simpa using hne
    rw [if_pos hpi]
  · show "c" ∈ ["c", "d", "a"]
    simp
  · show "b" ∉ ["c", "d", "a"]
    simp

theorem C4_witness :
    lookupPkg pmPru "b" = some pkgPruB ∧
    pkgPruB.pythonConstraint c0.pythonVersion = false ∧
    find_deps_of_deps c0 [] pmPru [] 1 "b"
      { searched := ["a"], transients := [] } =
      some (.ok { searched := ["b", "a"], transients := [] }) ∧
    lookupPkg pmWin "w" = some pkgWin ∧ pkgWin.platform = some "win32" ∧
    find_deps_of_deps c0 [] pmWin [] 1 "w"
      { searched := [], transients := [] } =
      some (.ok { searched := ["w"], transients := [] }) :=
  ⟨rfl, rfl,
    C4_incompatible_pruning.1 c0 [] pmPru [] 0 "b" ⟨["a"], []⟩ pkgPruB (by simp) rfl rfl,
    rfl, rfl,
    C4_incompatible_pruning.2.1 c0 [] pmWin [] 0 "w" ⟨[], []⟩ pkgWin "win32"
      (by simp) rfl rfl rfl (by decide)⟩

/-- Claim C7 fails on the code: in the store where `a` requires the absent
`x`, the deep lookup failure is caught by the top-level handler and surfaced
as an error naming and classified by the root `a`, not the missing `x`. -/
theorem C7_counterexample :
    identify_transients c0 [] pmDeep "a" [] =
      some (.error (.lockedDepNotFound "a")) ∧
    identify_transients c0 [] pmDeep "a" [] ≠
      some (.error (.lockedDepNotFound "x")) ∧
    identify_transients c0 [] pmDeep "a" [] ≠
      some (.error (.keyError "x")) := by
  have e1 : identify_transients c0 [] pmDeep "a" [] =
      some (.error (.lockedDepNotFound "a")) := rfl
  refine ⟨e1, ?_, ?_⟩
  · intro h
    rw [e1] at h
    injection h with h1
    injection h1 with h2
    injection h2 with h3
    exact absurd h3 (by decide)
  · intro h
    rw [e1] at h
    injection h with h1
    injection h1 with h2
    cases h2

/-- Claim C7 amended: a lookup failure for a transitive requirement deep in
the traversal propagates untranslated through the recursion, but is caught by
the top-level `except KeyError` handler of `identify_transients` and
translated there, classified by and naming the root dependency name (for a
bare, supported root: `LockedDepNotFoundError` for the root). -/
theorem C7_amended_top_translation :
    ∀ (cfg : SysConfig) (u : List String) (pm : PackageMap) (am : List String)
      (N : String) (p : PoetryPackage) (m : String), lookupPkg pm N = some p →
      find_deps_of_deps cfg u pm am (sufficientFuel pm) p.name
        { searched := [], transients := [] } = some (.error (.keyError m)) →
      N ∉ u → hasVersionDelimiter N = false →
      identify_transients cfg u pm N am =
        some (.error (.lockedDepNotFound N)) := by
  intro cfg u pm am N p m hl hfds hu hd
  unfold identify_transients
  rw [hl]
  dsimp only
  rw [hfds]
  dsimp only
  unfold handleRootKeyError
  rw [if_neg hu, if_neg (by simp [hd])]

theorem C7_amended_witness :
    lookupPkg pmDeep "a" = some pkgDeepA ∧
    find_deps_of_deps c0 [] pmDeep [] (sufficientFuel pmDeep) pkgDeepA.name
      { searched := [], transients := [] } = some (.error (.keyError "x")) ∧
    identify_transients c0 [] pmDeep "a" [] =
      some (.error (.lockedDepNotFound "a")) :=
  ⟨rfl, rfl,
    C7_amended_top_translation c0 [] pmDeep [] "a" pkgDeepA "x" rfl rfl (by simp) rfl⟩

/-- Claim C8: the dependency set builders concatenate the per-root resolver
outputs without deduplicating across roots: for two roots whose resolutions
succeed, the builder returns their concatenation, so name counts add up; and
concretely, on the store where `a` and `b` both require `c`, the shared
record `c` appears once per root in the merged list and once within each
root's own resolution. -/
theorem C8_concat_no_dedup :
    (∀ (cfg : SysConfig) (u : List String) (pm : PackageMap) (proj d1 d2 : String)
      (l1 l2 : List PoetryPackage) (x : String),
      identify_transients cfg u pm (strLower d1) [proj] = some (.ok l1) →
      identify_transients cfg u pm (strLower d2) [proj] = some (.ok l2) →
      find_env_dependencies cfg u pm proj [d1, d2] = some (.ok (l1 ++ l2)) ∧
      (names (l1 ++ l2)).count x = (names l1).count x + (names l2).count x) ∧
    (find_env_dependencies c0 [] pmSha "proj" ["a", "b"] =
      some (.ok [pkgShaC, pkgShaA, pkgShaC, pkgShaB]) ∧
     (names [pkgShaC, pkgShaA, pkgShaC, pkgShaB]).count "c" = 2 ∧
     (names [pkgShaC, pkgShaA]).count "c" = 1 ∧
     (names [pkgShaC, pkgShaB]).count "c" = 1) := by
  constructor
  · intro cfg u pm proj d1 d2 l1 l2 x h1 h2
    constructor
    · show concatTransients cfg u pm [proj] ([d1, d2].map (fun s => strLower s)) =
        some (.ok (l1 ++ l2))
      simp only [List.map_cons, List.map_nil]
      rw [concatTransients, h1]
      dsimp only
      rw [concatTransients, h2]
      dsimp only
      rw [concatTransients]
      dsimp only
      rw [List.append_nil]
    · unfold names
      rw [List.map_append]
      exact List.count_append _ _ _
  · exact ⟨rfl, by decide, by decide, by decide⟩

theorem C8_witness :
    identify_transients c0 [] pmSha (strLower "a") ["proj"] =
      some (.ok [pkgShaC, pkgShaA]) ∧
    identify_transients c0 [] pmSha (strLower "b") ["proj"] =
      some (.ok [pkgShaC, pkgShaB]) ∧
    find_env_dependencies c0 [] pmSha "proj" ["a", "b"] =
      some (.ok ([pkgShaC, pkgShaA] ++ [pkgShaC, pkgShaB])) ∧
    (names ([pkgShaC, pkgShaA] ++ [pkgShaC, pkgShaB])).count "c" =
      (names [pkgShaC, pkgShaA]).count "c" + (names [pkgShaC, pkgShaB]).count "c" :=
  ⟨rfl, rfl,
    (C8_concat_no_dedup.1 c0 [] pmSha "proj" "a" "b" [pkgShaC, pkgShaA]
      [pkgShaC, pkgShaB] "c" rfl rfl).1,
    (C8_concat_no_dedup.1 c0 [] pmSha "proj" "a" "b" [pkgShaC, pkgShaA]
      [pkgShaC, pkgShaB] "c" rfl rfl).2⟩

/-- Claim C9 fails even over the spec's case-insensitive store model: for an
absent root, resolving "Pip" raises `LockedDepNotFoundError` while resolving
its lowercase form "pip" hits the unsupported-package set and returns `[]`,
because both the unsupported-set test and the error message use the name as
written. -/
theorem C9_counterexample :
    (identify_transients_ci c0 ["pip"] [] "Pip" [] ≠
      identify_transients_ci c0 ["pip"] [] (strLower "Pip") []) ∧
    (identify_transients_ci c0 [] pmFooX "Foo" [] ≠
      identify_transients_ci c0 [] pmFooX (strLower "Foo") []) := by
  constructor
  · intro h
    have e1 : identify_transients_ci c0 ["pip"] [] "Pip" [] =
        some (.error (.lockedDepNotFound "Pip")) := rfl
    have e2 : identify_transients_ci c0 ["pip"] [] (strLower "Pip") [] =
        some (.ok []) := rfl
    rw [e1, e2] at h
    injection h with h1
    cases h1
  · intro h
    have e1 : identify_transients_ci c0 [] pmFooX "Foo" [] =
        some (.error (.lockedDepNotFound "Foo")) := rfl
    have e2 : identify_transients_ci c0 [] pmFooX (strLower "Foo") [] =
        some (.error (.lockedDepNotFound "foo")) := rfl
    rw [e1, e2] at h
    injection h with h1
    injection h1 with h2
    injection h2 with h3
    exact absurd h3 (by decide)

/-- Claim C9 amended (over the spec-modelled case-insensitive store): for a
store keyed by lowercase names, a root name whose lowercase form is a key,
and a traversal that completes without a lookup failure, resolving the name
as written and resolving its lowercase form return the same successful record
list; in particular an uppercase dev-dependency name still finds its
lowercase-keyed record. -/
theorem C9_amended_ci_store :
    ∀ (cfg : SysConfig) (u : List String) (pm : PackageMap) (am : List String)
      (N : String) (p : PoetryPackage) (st : St),
      (∀ kv ∈ pm, strLower kv.1 = kv.1) →
      lookupPkg pm (strLower N) = some p →
      find_deps_of_deps_ci cfg u pm am (sufficientFuel pm) p.name
        { searched := [], transients := [] } = some (.ok st) →
      identify_transients_ci cfg u pm N am = some (.ok st.transients) ∧
      identify_transients_ci cfg u pm (strLower N) am =
        some (.ok st.transients) := by
  intro cfg u pm am N p st hkeys hl htrav
  have hidem : strLower (strLower N) = strLower N :=
    hkeys (strLower N, p) (lookupPkg_mem hl)
  constructor
  · unfold identify_transients_ci lookupPkgCI
    rw [hl]
    dsimp only
    rw [htrav]
  · unfold identify_transients_ci lookupPkgCI
    rw [hidem, hl]
    dsimp only
    rw [htrav]

theorem C9_amended_witness :
    lookupPkg pmFoo (strLower "Foo") = some pkgFoo ∧
    find_deps_of_deps_ci c0 [] pmFoo [] (sufficientFuel pmFoo) pkgFoo.name
      { searched := [], transients := [] } =
      some (.ok { searched := ["foo"], transients := [pkgFoo] }) ∧
    identify_transients_ci c0 [] pmFoo "Foo" [] = some (.ok [pkgFoo]) ∧
    identify_transients_ci c0 [] pmFoo (strLower "Foo") [] =
      some (.ok [pkgFoo]) :=
  ⟨rfl, rfl,
    (C9_amended_ci_store c0 [] pmFoo [] "Foo" pkgFoo
      ⟨["foo"], [pkgFoo]⟩
      (fun kv hkv => by
        simp only [pmFoo, List.mem_singleton] at hkv
        subst hkv
        rfl) rfl rfl).1,
    (C9_amended_ci_store c0 [] pmFoo [] "Foo" pkgFoo
      ⟨["foo"], [pkgFoo]⟩
      (fun kv hkv => by
        simp only [pmFoo, List.mem_singleton] at hkv
        subst hkv
        rfl) rfl rfl).2⟩

end ToxPoetryInstaller
